import Mathlib

/-!
Verification of the trs80m1-mltl tape packer.

The development shallowly embeds the two Rust source files of the
repository (src/packing.rs and src/main.rs) as Lean functions over
lists of natural numbers.  Bytes are naturals below 256, 16-bit machine
integers are naturals below 65536 with explicit reduction modulo 65536
where the machine arithmetic wraps, and Unicode characters are their
code points as naturals.
-/

namespace Trs80

/-- Low byte of a 16-bit value: models the Rust expression
load_address AND 0x00FF cast to u8. -/
def lsb (a : Nat) : Nat := a % 256

/-- High byte of a 16-bit value: models the Rust expression
load_address AND 0xFF00, shifted right by 8, cast to u8. -/
def msb (a : Nat) : Nat := (a % 65536) / 256

/-- The running checksum of pack_chunk (src/packing.rs lines 105-126):
starting from 0, wrapping-add the low address byte, the high address
byte, and then every data byte in order. -/
def chunkChecksum (load_address : Nat) (chunk : List Nat) : Nat :=
  chunk.foldl (fun c b => (c + b) % 256)
    ((0 + lsb load_address + msb load_address) % 256)

/-- The length byte emitted by pack_chunk (src/packing.rs lines 110-114):
256 is encoded as 0, any other length is cast to u8. -/
def lengthByte (n : Nat) : Nat := if n = 256 then 0 else n % 256

/-- pack_chunk (src/packing.rs lines 103-133): the bytes appended to the
output buffer for one chunk: the 0x3C record header, the length byte,
the load address low byte then high byte, the data verbatim, and the
checksum. -/
def pack_chunk (chunk_to_pack : List Nat) (load_address : Nat) : List Nat :=
  0x3C :: lengthByte chunk_to_pack.length ::
    lsb load_address :: msb load_address ::
    (chunk_to_pack ++ [chunkChecksum load_address chunk_to_pack])

/-- The wrapping 16-bit load-address computation of pack_binary_image
(src/packing.rs line 143 and 146): base_address plus already_packed
truncated to u16, the sum itself wrapping as a u16. -/
def loadAddr (base_address already_packed : Nat) : Nat :=
  (base_address + already_packed % 65536) % 65536

/-- The loop of pack_binary_image (src/packing.rs lines 141-149),
expressed over the not-yet-packed suffix of the input buffer together
with the already_packed counter.  While bytes remain, if more than 255
remain a 256-byte chunk is packed, otherwise all remaining bytes form
the final chunk. -/
def pack_binary_image_go (base_address : Nat) (remaining : List Nat)
    (already_packed : Nat) : List Nat :=
  if remaining.length = 0 then []
  else if remaining.length > 255 then
    pack_chunk (remaining.take 256) (loadAddr base_address already_packed) ++
      pack_binary_image_go base_address (remaining.drop 256)
        (already_packed + 256)
  else
    pack_chunk remaining (loadAddr base_address already_packed) ++
      pack_binary_image_go base_address (remaining.drop remaining.length)
        (already_packed + remaining.length)
termination_by remaining.length
decreasing_by
  all_goals simp only [List.length_drop]
  all_goals omega

/-- pack_binary_image (src/packing.rs lines 135-160): the chunk records
appended to the output buffer for the whole input. -/
def pack_binary_image (input_buffer : List Nat) (base_address : Nat) :
    List Nat :=
  pack_binary_image_go base_address input_buffer 0

/-- The sequence of (load address, data) pairs that the loop of
pack_binary_image (src/packing.rs lines 141-149) passes to pack_chunk,
in order.  Same recursion structure as pack_binary_image_go, recording
the arguments of each pack_chunk call instead of its output bytes. -/
def chunkSeq (base_address : Nat) (remaining : List Nat)
    (already_packed : Nat) : List (Nat × List Nat) :=
  if remaining.length = 0 then []
  else if remaining.length > 255 then
    (loadAddr base_address already_packed, remaining.take 256) ::
      chunkSeq base_address (remaining.drop 256) (already_packed + 256)
  else
    (loadAddr base_address already_packed, remaining) ::
      chunkSeq base_address (remaining.drop remaining.length)
        (already_packed + remaining.length)
termination_by remaining.length
decreasing_by
  all_goals simp only [List.length_drop]
  all_goals omega

/-- A parser for a stream of chunk records, following the record
grammar given by the specification: each record is the byte 0x3C, a
length byte (0 denoting 256), the load-address low and high bytes, that
many data bytes, and a checksum byte.  Returns the concatenation of the
data fields, or none when the stream is not a sequence of such
records. -/
def parseChunks (stream : List Nat) : Option (List Nat) :=
  match stream with
  | [] => some []
  | header :: lenByte :: _addrLo :: _addrHi :: rest =>
    if header = 0x3C then
      let n := if lenByte = 0 then 256 else lenByte
      if n + 1 ≤ rest.length then
        match parseChunks (rest.drop (n + 1)) with
        | some tailData => some (rest.take n ++ tailData)
        | none => none
      else none
    else none
  | _ => none
termination_by stream.length
decreasing_by
  simp only [List.length_drop, List.length_cons]
  omega

/-- generate_data_entry_header (src/packing.rs lines 83-101): 256 zero
leader bytes, the sync byte 0xA5, the system-format byte 0x55, and the
six entry-name bytes (pack asserts the name has exactly 6 bytes). -/
def generate_data_entry_header (entry_name : List Nat) : List Nat :=
  List.replicate 256 0 ++ [0xA5, 0x55] ++ entry_name.take 6

/-- finalize_data_entry (src/packing.rs lines 162-169): the end-of-file
marker 0x78 followed by the entry point, low byte then high byte. -/
def finalize_data_entry (entry_point : Nat) : List Nat :=
  [0x78, lsb entry_point, msb entry_point]

/-- The two failures input_file_sanity_check can report
(src/packing.rs lines 64-81): the input exceeding the capacity left
above the base address (the reported maximum permissible size is
carried), and the empty input. -/
inductive SanityError where
  | capacityExceeded (maxPermissible : Nat) : SanityError
  | emptyInput : SanityError
deriving DecidableEq

/-- input_file_sanity_check (src/packing.rs lines 64-81): reports a
capacity failure when length exceeds 0x10000 minus the base address
(carrying the maximum permissible size it prints), an empty-input
failure when the length is zero, and no failure otherwise. -/
def input_file_sanity_check (base_address length : Nat) :
    Option SanityError :=
  if length > 0x10000 - base_address then
    some (SanityError.capacityExceeded (0x10000 - base_address))
  else if length = 0 then
    some SanityError.emptyInput
  else
    none

/-- The full in-memory tape image assembled by pack on the success path
(src/packing.rs lines 190-192): header, chunk records, trailer. -/
def pack_tape_image (input_buffer entry_name : List Nat)
    (base_address entry_point : Nat) : List Nat :=
  generate_data_entry_header entry_name ++
    pack_binary_image input_buffer base_address ++
    finalize_data_entry entry_point

/-- Filesystem actions pack can perform, in order of occurrence:
reading the input file, and creating-then-writing the output file
(write_down_tape_file, src/packing.rs lines 40-62, is only called at
line 194 after everything else succeeded). -/
inductive FsEvent where
  | readInput : FsEvent
  | touchOutput : FsEvent
deriving DecidableEq

/-- Outcome of one run of pack: whether it returned true, the
filesystem actions it performed in order, and the output buffer handed
to the write step (empty when the write step was never reached). -/
structure PackRun where
  success : Bool
  events : List FsEvent
  written : List Nat

/-- pack (src/packing.rs lines 172-195) as a function of the outcome of
the input read (none models load_input_file failing) and of the write
step (writeOk models write_down_tape_file succeeding).  The sanity
check runs after the read; the header, chunks and trailer are assembled
in memory; only then is the destination file touched. -/
def pack (readResult : Option (List Nat)) (entry_name : List Nat)
    (base_address entry_point : Nat) (writeOk : Bool) : PackRun :=
  match readResult with
  | none => ⟨false, [FsEvent.readInput], []⟩
  | some input_buffer =>
    match input_file_sanity_check base_address input_buffer.length with
    | some _ => ⟨false, [FsEvent.readInput], []⟩
    | none =>
      let output_buffer :=
        pack_tape_image input_buffer entry_name base_address entry_point
      ⟨writeOk, [FsEvent.readInput, FsEvent.touchOutput], output_buffer⟩

/-- The loop of retrieve_tape_entry_name (src/main.rs lines 149-177)
over the remaining characters of the template (characters are Unicode
code points as naturals).  entry_name is the 6-byte output buffer,
name_iter the next output slot, has_first_char whether a letter has
been retained so far.  The loop breaks once name_iter reaches 6; a
space is retained only when has_first_char holds; upper-case letters
are retained as they are, lower-case letters are retained upper-cased
(code point minus 0x20), everything else is skipped. -/
def retrieve_tape_entry_name_go (template entry_name : List Nat)
    (name_iter : Nat) (has_first_char : Bool) : List Nat × Bool :=
  match template with
  | [] => (entry_name, has_first_char)
  | character :: rest =>
    if name_iter = 6 then (entry_name, has_first_char)
    else if character = 0x20 ∧ has_first_char = true then
      retrieve_tape_entry_name_go rest (entry_name.set name_iter 0x20)
        (name_iter + 1) has_first_char
    else if 0x41 ≤ character ∧ character ≤ 0x5A then
      retrieve_tape_entry_name_go rest (entry_name.set name_iter character)
        (name_iter + 1) true
    else if 0x61 ≤ character ∧ character ≤ 0x7A then
      retrieve_tape_entry_name_go rest
        (entry_name.set name_iter (character - 0x20)) (name_iter + 1) true
    else
      retrieve_tape_entry_name_go rest entry_name name_iter has_first_char

/-- retrieve_tape_entry_name (src/main.rs lines 138-181) applied to an
already-chosen template string: the output buffer starts as six spaces
and the scan starts at slot 0 with no letter seen. -/
def retrieve_tape_entry_name (template : List Nat) : List Nat × Bool :=
  retrieve_tape_entry_name_go template (List.replicate 6 0x20) 0 false

/-- Modelled from the spec (section 4.1), for comparison with the
source sanitizer: the list of retained characters, computed as the spec
words it: scan character by character, retain a space only once a
letter has been retained, retain letters upper-casing lower case, stop
when the given number of output slots is exhausted; also returns
whether a letter was retained. -/
def specRetained (input : List Nat) (slots : Nat) (hasLetter : Bool) :
    List Nat × Bool :=
  match input with
  | [] => ([], hasLetter)
  | c :: rest =>
    if slots = 0 then ([], hasLetter)
    else if c = 0x20 ∧ hasLetter = true then
      let r := specRetained rest (slots - 1) hasLetter
      (0x20 :: r.1, r.2)
    else if 0x41 ≤ c ∧ c ≤ 0x5A then
      let r := specRetained rest (slots - 1) true
      (c :: r.1, r.2)
    else if 0x61 ≤ c ∧ c ≤ 0x7A then
      let r := specRetained rest (slots - 1) true
      ((c - 0x20) :: r.1, r.2)
    else specRetained rest slots hasLetter

/-- Modelled from the spec (section 4.1): the sanitized name is the
first six retained characters right-padded with spaces to six bytes,
together with the has-letters flag. -/
def sanitizeSpec (input : List Nat) : List Nat × Bool :=
  let r := specRetained input 6 false
  (r.1 ++ List.replicate (6 - r.1.length) 0x20, r.2)

/-- char::to_digit(16) of the Rust standard library, on code points:
decimal digits, lower-case a-f and upper-case A-F map to their values,
everything else to none. -/
def to_digit16 (c : Nat) : Option Nat :=
  if 0x30 ≤ c ∧ c ≤ 0x39 then some (c - 0x30)
  else if 0x61 ≤ c ∧ c ≤ 0x66 then some (c - 0x61 + 10)
  else if 0x41 ≤ c ∧ c ≤ 0x46 then some (c - 0x41 + 10)
  else none

/-- The accumulation loop of parse_hex_arg (src/main.rs lines 77-82):
for each remaining character, fail unless it is a hex digit, and fold
it into the u32 accumulator as (accumulator shifted left by 4, which
wraps modulo two to the 32, bitwise-or the digit). -/
def parse_hex_loop (chars : List Nat) (accumulator : Nat) : Option Nat :=
  match chars with
  | [] => some accumulator
  | current_char :: rest =>
    match to_digit16 current_char with
    | some digit =>
      parse_hex_loop rest (((accumulator <<< 4) % 4294967296) ||| digit)
    | none => none

/-- parse_hex_arg (src/main.rs lines 48-88): an empty argument fails;
a leading 0 followed by x or X is skipped (the effective first
character becomes 0 and scanning resumes after the prefix); otherwise,
when the first character is 0, the second character becomes the
effective first character; the effective first character must be a hex
digit and initializes the accumulator, and the remaining characters are
folded in by parse_hex_loop. -/
def parse_hex_arg (arg : List Nat) : Option Nat :=
  match arg with
  | [] => none
  | first_char :: rest =>
    let eff : Nat × List Nat :=
      if first_char = 0x30 then
        match rest with
        | [] => (0x30, [])
        | character :: rest2 =>
          if character = 0x78 ∨ character = 0x58 then (0x30, rest2)
          else (character, rest2)
      else (first_char, rest)
    match to_digit16 eff.1 with
    | some digit => parse_hex_loop eff.2 digit
    | none => none

/-- The address-validation step shared by retrieve_base_address
(src/main.rs lines 92-105) and retrieve_entry_point (lines 116-129)
when the option argument is present: parse it as hex, then reject any
value above 0xFFFF. -/
def retrieve_address_from (argument : List Nat) : Option Nat :=
  match parse_hex_arg argument with
  | some address => if address > 0xFFFF then none else some address
  | none => none

/-- The argument after an optional leading 0x or 0X prefix (a helper
for stating which characters parse_hex_arg actually scans as digits). -/
def stripPfx (arg : List Nat) : List Nat :=
  match arg with
  | first :: c :: rest =>
    if first = 0x30 ∧ (c = 0x78 ∨ c = 0x58) then rest else arg
  | _ => arg

/-- The number denoted by a string of hex digits (most significant
first), with non-digits contributing 0. -/
def hexVal (digits : List Nat) : Nat :=
  digits.foldl (fun a c => a * 16 + (to_digit16 c).getD 0) 0

/-! Helper lemmas. -/

/-- Folding wrapping byte addition over a list sums the list modulo 256. -/
theorem foldl_add_mod :
    ∀ (l : List Nat) (init : Nat), init < 256 →
      l.foldl (fun c b => (c + b) % 256) init = (init + l.sum) % 256
  | [], init, h => by
    simp [Nat.mod_eq_of_lt h]
  | b :: t, init, h => by
    simp only [List.foldl_cons, List.sum_cons]
    rw [foldl_add_mod t ((init + b) % 256) (Nat.mod_lt _ (by omega))]
    omega

/-- The running checksum of pack_chunk equals the mod-256 sum of the two
address bytes and the data bytes. -/
theorem chunkChecksum_eq (a : Nat) (c : List Nat) :
    chunkChecksum a c = (lsb a + msb a + c.sum) % 256 := by
  rw [chunkChecksum, foldl_add_mod _ _ (Nat.mod_lt _ (by omega))]
  omega

/-- Unfolding pack_binary_image_go on an exhausted input. -/
theorem go_nil (b ap : Nat) : pack_binary_image_go b [] ap = [] := by
  rw [pack_binary_image_go]
  simp

/-- Unfolding pack_binary_image_go when at most 255 bytes remain: a
single final chunk is packed. -/
theorem go_small (b ap : Nat) (rem : List Nat) (h1 : rem ≠ [])
    (h2 : rem.length ≤ 255) :
    pack_binary_image_go b rem ap = pack_chunk rem (loadAddr b ap) := by
  have hlen : rem.length ≠ 0 := by simpa using h1
  rw [pack_binary_image_go, if_neg hlen, if_neg (by omega),
    List.drop_length, go_nil, List.append_nil]

/-- Unfolding pack_binary_image_go when more than 255 bytes remain: a
256-byte chunk is packed and the loop continues. -/
theorem go_big (b ap : Nat) (rem : List Nat) (h : rem.length > 255) :
    pack_binary_image_go b rem ap =
      pack_chunk (rem.take 256) (loadAddr b ap) ++
        pack_binary_image_go b (rem.drop 256) (ap + 256) := by
  rw [pack_binary_image_go, if_neg (by omega), if_pos h]

/-- Unfolding chunkSeq on an exhausted input. -/
theorem chunkSeq_nil (b ap : Nat) : chunkSeq b [] ap = [] := by
  rw [chunkSeq]
  simp

/-- Unfolding chunkSeq when at most 255 bytes remain. -/
theorem chunkSeq_small (b ap : Nat) (rem : List Nat) (h1 : rem ≠ [])
    (h2 : rem.length ≤ 255) :
    chunkSeq b rem ap = [(loadAddr b ap, rem)] := by
  have hlen : rem.length ≠ 0 := by simpa using h1
  rw [chunkSeq, if_neg hlen, if_neg (by omega), List.drop_length,
    chunkSeq_nil]

/-- Unfolding chunkSeq when more than 255 bytes remain. -/
theorem chunkSeq_big (b ap : Nat) (rem : List Nat) (h : rem.length > 255) :
    chunkSeq b rem ap =
      (loadAddr b ap, rem.take 256) ::
        chunkSeq b (rem.drop 256) (ap + 256) := by
  rw [chunkSeq, if_neg (by omega), if_pos h]

/-- Unfolding the record parser on the empty stream. -/
theorem parseChunks_nil : parseChunks [] = some [] := by
  rw [parseChunks]

/-- The record parser consumes one record emitted by pack_chunk (for
any chunk of 1 to 256 data bytes) and recovers exactly its data in
front of whatever the rest of the stream parses to. -/
theorem parseChunks_pack_chunk (c : List Nat) (a : Nat) (tail : List Nat)
    (h1 : 1 ≤ c.length) (h2 : c.length ≤ 256) :
    parseChunks (pack_chunk c a ++ tail) =
      (parseChunks tail).map (fun t => c ++ t) := by
  have hshape : pack_chunk c a ++ tail =
      0x3C :: lengthByte c.length :: lsb a :: msb a ::
        ((c ++ [chunkChecksum a c]) ++ tail) := by
    simp [pack_chunk]
  rw [hshape, parseChunks, if_pos rfl]
  have hn : (if lengthByte c.length = 0 then 256 else lengthByte c.length) =
      c.length := by
    rw [lengthByte]
    rcases eq_or_ne c.length 256 with h256 | h256
    · simp [h256]
    · have hlt : c.length < 256 := by omega
      rw [if_neg h256, Nat.mod_eq_of_lt hlt, if_neg (by omega)]
  simp only [hn]
  have hrestlen : c.length + 1 ≤ ((c ++ [chunkChecksum a c]) ++ tail).length := by
    simp
  rw [if_pos hrestlen]
  have hdrop : ((c ++ [chunkChecksum a c]) ++ tail).drop (c.length + 1) = tail :=
    List.drop_left' (by simp)
  have htake : ((c ++ [chunkChecksum a c]) ++ tail).take c.length = c := by
    rw [List.append_assoc]
    exact List.take_left' rfl
  rw [hdrop, htake]
  cases parseChunks tail <;> simp

/-! Claim theorems. -/

/-- C3: the final byte of every chunk record emitted by pack_chunk is
the 8-bit wrapping sum of the two load-address bytes followed by every
data byte, and the record consists of the 0x3C header, the length byte,
the two address bytes, the data, and that checksum — so neither the
header byte nor the length byte enters the sum. -/
theorem c3_checksum (c : List Nat) (a : Nat) :
    pack_chunk c a =
      0x3C :: lengthByte c.length :: (a % 256) :: ((a % 65536) / 256) ::
        (c ++ [(a % 256 + (a % 65536) / 256 + c.sum) % 256]) ∧
    (pack_chunk c a).getLast? =
      some ((a % 256 + (a % 65536) / 256 + c.sum) % 256) := by
  have hck : chunkChecksum a c = (a % 256 + (a % 65536) / 256 + c.sum) % 256 := by
    rw [chunkChecksum_eq, lsb, msb]
  constructor
  · rw [pack_chunk, hck, lsb, msb]
  · rw [pack_chunk, hck, lsb, msb, ← List.cons_append, ← List.cons_append,
      ← List.cons_append, ← List.cons_append, List.getLast?_concat]

/-- Re-parsing the records emitted by the packing loop recovers the
not-yet-packed input, for every state of the loop. -/
theorem parseChunks_go (b : Nat) :
    ∀ (n : Nat) (rem : List Nat), rem.length ≤ n →
      ∀ ap, parseChunks (pack_binary_image_go b rem ap) = some rem := by
  intro n
  induction n with
  | zero =>
    intro rem h ap
    have hnil : rem = [] := by
      cases rem with
      | nil => rfl
      | cons x t => simp at h
    rw [hnil, go_nil, parseChunks_nil]
  | succ n ih =>
    intro rem h ap
    rcases eq_or_ne rem ([] : List Nat) with hnil | hnil
    · rw [hnil, go_nil, parseChunks_nil]
    · have hpos : 0 < rem.length := List.length_pos.mpr hnil
      rcases le_or_lt rem.length 255 with hsmall | hbig
      · rw [go_small b ap rem hnil hsmall, ← List.append_nil (pack_chunk rem _),
          parseChunks_pack_chunk rem _ [] (by omega) (by omega), parseChunks_nil]
        simp
      · rw [go_big b ap rem (by omega),
          parseChunks_pack_chunk _ _ _ (by simp; omega) (by simp),
          ih (rem.drop 256) (by simp; omega) (ap + 256)]
        simp [List.take_append_drop]

/-- C1: for every non-empty input that fits above the base address,
parsing the chunk records produced by pack_binary_image as
0x3C, length byte (0 read as 256), address low, address high, data,
checksum records and concatenating the data fields recovers the input
byte-for-byte. -/
theorem c1_roundtrip (B : List Nat) (base : Nat) (hne : B ≠ [])
    (hcap : B.length ≤ 0x10000 - base) :
    parseChunks (pack_binary_image B base) = some B := by
  rw [pack_binary_image]
  exact parseChunks_go base B.length B le_rfl 0

/-- C1 witness: the round trip at the concrete input [1, 2, 3] with
base address 0x4000. -/
theorem c1_roundtrip_witness :
    ([1, 2, 3] : List Nat) ≠ [] ∧ ([1, 2, 3] : List Nat).length ≤ 0x10000 - 0x4000 ∧
      parseChunks (pack_binary_image [1, 2, 3] 0x4000) = some [1, 2, 3] :=
  ⟨by decide, by decide, c1_roundtrip [1, 2, 3] 0x4000 (by decide) (by decide)⟩

/-- C5: a chunk of exactly 256 data bytes gets length byte 0, a chunk
of 1 to 255 data bytes gets its length as the length byte, and the
packing loop never produces an empty chunk. -/
theorem c5_length_byte :
    (∀ (c : List Nat) (a : Nat), c.length = 256 →
      (pack_chunk c a).getD 1 999 = 0) ∧
    (∀ (c : List Nat) (a : Nat), 1 ≤ c.length → c.length ≤ 255 →
      (pack_chunk c a).getD 1 999 = c.length) ∧
    (∀ (base : Nat) (B : List Nat) (p : Nat × List Nat),
      p ∈ chunkSeq base B 0 → p.2.length ≠ 0) := by
  refine ⟨?_, ?_, ?_⟩
  · intro c a h
    rw [pack_chunk, lengthByte, if_pos h]
    rfl
  · intro c a h1 h2
    rw [pack_chunk, lengthByte, if_neg (by omega)]
    simp [Nat.mod_eq_of_lt (by omega : c.length < 256)]
  · intro base B
    suffices H : ∀ (n : Nat) (rem : List Nat), rem.length ≤ n → ∀ ap,
        ∀ p ∈ chunkSeq base rem ap, p.2.length ≠ 0 by
      intro p hp
      exact H B.length B le_rfl 0 p hp
    intro n
    induction n with
    | zero =>
      intro rem h ap p hp
      have hnil : rem = [] := by
        cases rem with
        | nil => rfl
        | cons x t => simp at h
      rw [hnil, chunkSeq_nil] at hp
      simp at hp
    | succ n ih =>
      intro rem h ap p hp
      rcases eq_or_ne rem ([] : List Nat) with hnil | hnil
      · rw [hnil, chunkSeq_nil] at hp
        simp at hp
      · have hpos : 0 < rem.length := List.length_pos.mpr hnil
        rcases le_or_lt rem.length 255 with hsmall | hbig
        · rw [chunkSeq_small base ap rem hnil hsmall] at hp
          simp only [List.mem_singleton] at hp
          rw [hp]
          simpa using hnil
        · rw [chunkSeq_big base ap rem (by omega)] at hp
          rcases List.mem_cons.mp hp with hp1 | hp2
          · rw [hp1]
            simp only [List.length_take]
            omega
          · exact ih (rem.drop 256) (by simp; omega) (ap + 256) p hp2

/-- C5 witness: the length byte of a full 256-byte chunk, of a 3-byte
chunk, and non-emptiness of the single chunk packed from [5]. -/
theorem c5_length_byte_witness :
    (pack_chunk (List.replicate 256 7) 0).getD 1 999 = 0 ∧
      (pack_chunk [1, 2, 3] 0).getD 1 999 = 3 ∧
      ((0, [5]) : Nat × List Nat).2.length ≠ 0 :=
  ⟨c5_length_byte.1 (List.replicate 256 7) 0 (by rw [List.length_replicate]),
   c5_length_byte.2.1 [1, 2, 3] 0 (by simp) (by simp),
   c5_length_byte.2.2 0 [5] (0, [5])
     (by
       rw [chunkSeq_small 0 0 [5] (by simp) (by simp)]
       simp [loadAddr])⟩

/-- C2: for a 6-byte entry name and a 16-bit entry point, the output
stream starts with 256 zero bytes, followed at offset 256 by the sync
byte 0xA5, at 257 by the format byte 0x55, at 258 by the 6 entry-name
bytes verbatim, so the chunk records start at offset 264; and it ends
with the end-of-file marker 0x78 followed by the entry point low byte
then high byte. -/
theorem c2_layout (input_buffer entry_name : List Nat)
    (base_address entry_point : Nat) (hname : entry_name.length = 6)
    (hep : entry_point < 65536) :
    (pack_tape_image input_buffer entry_name base_address entry_point).take 256 =
      List.replicate 256 0 ∧
    (pack_tape_image input_buffer entry_name base_address entry_point).drop 256 =
      0xA5 :: 0x55 :: (entry_name ++
        (pack_binary_image input_buffer base_address ++
          [0x78, entry_point % 256, entry_point / 256])) ∧
    (pack_tape_image input_buffer entry_name base_address entry_point).drop 264 =
      pack_binary_image input_buffer base_address ++
        [0x78, entry_point % 256, entry_point / 256] ∧
    (pack_tape_image input_buffer entry_name base_address entry_point).drop
        ((pack_tape_image input_buffer entry_name base_address entry_point).length - 3) =
      [0x78, entry_point % 256, entry_point / 256] := by
  have htrailer : finalize_data_entry entry_point =
      [0x78, entry_point % 256, entry_point / 256] := by
    rw [finalize_data_entry, lsb, msb, Nat.mod_eq_of_lt hep]
  have htake6 : entry_name.take 6 = entry_name := by
    rw [← hname, List.take_length]
  have himg : pack_tape_image input_buffer entry_name base_address entry_point =
      List.replicate 256 0 ++ (0xA5 :: 0x55 :: (entry_name ++
        (pack_binary_image input_buffer base_address ++
          [0x78, entry_point % 256, entry_point / 256]))) := by
    rw [pack_tape_image, generate_data_entry_header, htrailer, htake6]
    simp only [List.append_assoc, List.cons_append, List.nil_append]
  refine ⟨?_, ?_, ?_, ?_⟩
  · rw [himg]
    exact List.take_left' (List.length_replicate 256 0)
  · rw [himg]
    exact List.drop_left' (List.length_replicate 256 0)
  · have himg2 : pack_tape_image input_buffer entry_name base_address entry_point =
        (List.replicate 256 0 ++ [0xA5, 0x55] ++ entry_name) ++
          (pack_binary_image input_buffer base_address ++
            [0x78, entry_point % 256, entry_point / 256]) := by
      rw [himg]
      simp only [List.append_assoc, List.cons_append, List.nil_append]
    rw [himg2]
    refine List.drop_left' ?_
    simp only [List.length_append, List.length_replicate, List.length_cons,
      List.length_nil, hname]
  · have himg3 : pack_tape_image input_buffer entry_name base_address entry_point =
        (List.replicate 256 0 ++ [0xA5, 0x55] ++ entry_name ++
          pack_binary_image input_buffer base_address) ++
          [0x78, entry_point % 256, entry_point / 256] := by
      rw [himg]
      simp only [List.append_assoc, List.cons_append, List.nil_append]
    rw [himg3]
    refine List.drop_left' ?_
    simp only [List.length_append, List.length_cons, List.length_nil]
    omega

/-- C2 witness: the layout properties at the one-byte input [9], the
entry name ABCDEF, base address 0 and entry point 0x4321. -/
theorem c2_layout_witness :
    ([65, 66, 67, 68, 69, 70] : List Nat).length = 6 ∧ 0x4321 < 65536 ∧
      (pack_tape_image [9] [65, 66, 67, 68, 69, 70] 0 0x4321).drop 264 =
        pack_binary_image [9] 0 ++ [0x78, 0x21, 0x43] :=
  ⟨by decide, by decide,
    (c2_layout [9] [65, 66, 67, 68, 69, 70] 0 0x4321 (by decide) (by decide)).2.2.1⟩

/-- C6: with a 16-bit base address, the sanity checks pass exactly when
the input is non-empty and fits into the address space above the base
address; an oversized input reports the capacity failure carrying the
maximum permissible size 0x10000 minus the base address, an empty input
reports the distinct empty-input failure, and in particular base
address 0xFF00 with 257 input bytes reports a maximum of 256. -/
theorem c6_sanity_check (base_address length : Nat) (hb : base_address < 65536) :
    (input_file_sanity_check base_address length = none ↔
      length ≠ 0 ∧ length ≤ 0x10000 - base_address) ∧
    (length > 0x10000 - base_address →
      input_file_sanity_check base_address length =
        some (SanityError.capacityExceeded (0x10000 - base_address))) ∧
    (length = 0 →
      input_file_sanity_check base_address length =
        some SanityError.emptyInput) ∧
    (∀ m, SanityError.capacityExceeded m ≠ SanityError.emptyInput) ∧
    input_file_sanity_check 0xFF00 257 =
      some (SanityError.capacityExceeded 256) := by
  refine ⟨?_, ?_, ?_, ?_, ?_⟩
  · rw [input_file_sanity_check]
    rcases le_or_lt length (0x10000 - base_address) with hle | hgt
    · rw [if_neg (by omega)]
      rcases eq_or_ne length 0 with h0 | h0
      · rw [if_pos h0]
        simp [h0]
      · rw [if_neg h0]
        simp [h0, hle]
    · rw [if_pos hgt]
      simp
      omega
  · intro hgt
    rw [input_file_sanity_check, if_pos hgt]
  · intro h0
    rw [input_file_sanity_check, if_neg (by omega), if_pos h0]
  · intro m
    simp
  · rw [input_file_sanity_check]
    norm_num

/-- C6 witness: at base address 0xFF00, length 257 fails with the
capacity error reporting 256 as the maximum, and length 256 passes. -/
theorem c6_sanity_check_witness :
    (input_file_sanity_check 0xFF00 257 =
      some (SanityError.capacityExceeded 256)) ∧
    (input_file_sanity_check 0xFF00 256 = none) :=
  ⟨(c6_sanity_check 0xFF00 257 (by decide)).2.2.2.2,
   ((c6_sanity_check 0xFF00 256 (by decide)).1).mpr (by decide)⟩

/-- The bytes emitted by the packing loop are the concatenation of the
records pack_chunk produces for the chunk sequence. -/
theorem go_eq_chunkSeq (b : Nat) :
    ∀ (n : Nat) (rem : List Nat), rem.length ≤ n → ∀ ap,
      pack_binary_image_go b rem ap =
        ((chunkSeq b rem ap).map (fun p => pack_chunk p.2 p.1)).flatten := by
  intro n
  induction n with
  | zero =>
    intro rem h ap
    have hnil : rem = [] := by
      cases rem with
      | nil => rfl
      | cons x t => simp at h
    rw [hnil, go_nil, chunkSeq_nil]
    rfl
  | succ n ih =>
    intro rem h ap
    rcases eq_or_ne rem ([] : List Nat) with hnil | hnil
    · rw [hnil, go_nil, chunkSeq_nil]
      rfl
    · have hpos : 0 < rem.length := List.length_pos.mpr hnil
      rcases le_or_lt rem.length 255 with hsmall | hbig
      · rw [go_small b ap rem hnil hsmall, chunkSeq_small b ap rem hnil hsmall]
        simp
      · rw [go_big b ap rem (by omega), chunkSeq_big b ap rem (by omega),
          ih (rem.drop 256) (by simp; omega) (ap + 256)]
        simp

/-- Under the capacity precondition, the chunk sequence from any loop
state is exactly: one chunk per 256-byte slice of the remaining input,
the chunk with index i starting at load address b + ap + 256 i (no
16-bit wraparound occurring). -/
theorem chunkSeq_char (b : Nat) :
    ∀ (n : Nat) (rem : List Nat), rem.length ≤ n → ∀ ap,
      b + ap + rem.length ≤ 65536 →
      chunkSeq b rem ap =
        (List.range ((rem.length + 255) / 256)).map
          (fun i => (b + ap + 256 * i, (rem.drop (256 * i)).take 256)) := by
  intro n
  induction n with
  | zero =>
    intro rem h ap hfit
    have hnil : rem = [] := by
      cases rem with
      | nil => rfl
      | cons x t => simp at h
    rw [hnil, chunkSeq_nil]
    simp
  | succ n ih =>
    intro rem h ap hfit
    rcases eq_or_ne rem ([] : List Nat) with hnil | hnil
    · rw [hnil, chunkSeq_nil]
      simp
    · have hpos : 0 < rem.length := List.length_pos.mpr hnil
      have haddr : loadAddr b ap = b + ap := by
        rw [loadAddr, Nat.mod_eq_of_lt (by omega : ap < 65536),
          Nat.mod_eq_of_lt (by omega)]
      rcases le_or_lt rem.length 255 with hsmall | hbig
      · rw [chunkSeq_small b ap rem hnil hsmall]
        have hcount : (rem.length + 255) / 256 = 1 := by omega
        rw [hcount, show List.range 1 = [0] from rfl]
        simp only [List.map_cons, List.map_nil, Nat.mul_zero,
          Nat.add_zero, List.drop_zero]
        rw [haddr, List.take_of_length_le (by omega)]
      · rw [chunkSeq_big b ap rem (by omega),
          ih (rem.drop 256) (by simp; omega) (ap + 256)
            (by simp only [List.length_drop]; omega)]
        have hcount : (rem.length + 255) / 256 =
            ((rem.drop 256).length + 255) / 256 + 1 := by
          simp only [List.length_drop]
          omega
        rw [hcount, List.range_succ_eq_map]
        simp only [List.map_cons, List.map_map, Nat.mul_zero, Nat.add_zero,
          List.drop_zero]
        rw [haddr]
        refine congrArg _ ?_
        refine List.map_congr_left ?_
        intro i _
        simp only [Function.comp_apply, Nat.succ_eq_add_one, Prod.mk.injEq]
        refine ⟨by ring, ?_⟩
        rw [List.drop_drop, show 256 + 256 * i = 256 * (i + 1) from by ring]

/-- Element i of a mapped range, via getD. -/
theorem getD_range_map {α : Type} (f : Nat → α) (n i : Nat) (d : α)
    (h : i < n) : ((List.range n).map f).getD i d = f i := by
  rw [List.getD_eq_getElem?_getD, List.getElem?_map, List.getElem?_range h]
  rfl

/-- C4: for a non-empty input that fits above the base address, the
emitted stream is the concatenation of the records of the chunk
sequence; there are ceil(length / 256) chunks; chunk i is loaded at
base + 256 i; every chunk but the last holds exactly 256 bytes; the
last holds length mod 256 bytes (256 when length is an exact multiple);
every chunk ends at or below address 0xFFFF; and the 16-bit sum of the
base address and the already-packed count never wraps. -/
theorem c4_segmentation (B : List Nat) (base : Nat) (hne : B ≠ [])
    (hcap : B.length ≤ 0x10000 - base) :
    pack_binary_image B base =
      ((chunkSeq base B 0).map (fun p => pack_chunk p.2 p.1)).flatten ∧
    (chunkSeq base B 0).length = (B.length + 255) / 256 ∧
    (∀ i, i < (B.length + 255) / 256 →
      ((chunkSeq base B 0).getD i (0, [])).1 = base + 256 * i) ∧
    (∀ i, i + 1 < (B.length + 255) / 256 →
      ((chunkSeq base B 0).getD i (0, [])).2.length = 256) ∧
    ((chunkSeq base B 0).getD ((B.length + 255) / 256 - 1) (0, [])).2.length =
      (if B.length % 256 = 0 then 256 else B.length % 256) ∧
    (∀ i, i < (B.length + 255) / 256 →
      base + 256 * i + ((chunkSeq base B 0).getD i (0, [])).2.length - 1
        ≤ 0xFFFF) ∧
    (∀ i, i < (B.length + 255) / 256 →
      (base + (256 * i) % 65536) % 65536 = base + 256 * i) := by
  have hpos : 0 < B.length := List.length_pos.mpr hne
  have hchar := chunkSeq_char base B.length B le_rfl 0 (by omega)
  simp only [Nat.add_zero] at hchar
  have hlenbound : ∀ i, i < (B.length + 255) / 256 → 256 * i < B.length := by
    intro i hi
    omega
  refine ⟨go_eq_chunkSeq base B.length B le_rfl 0, ?_, ?_, ?_, ?_, ?_, ?_⟩
  · rw [hchar]
    simp
  · intro i hi
    rw [hchar, getD_range_map _ _ _ _ hi]
  · intro i hi
    rw [hchar, getD_range_map _ _ _ _ (by omega)]
    simp only [List.length_take, List.length_drop]
    rw [Nat.min_def]
    split <;> omega
  · rw [hchar, getD_range_map _ _ _ _ (by omega)]
    simp only [List.length_take, List.length_drop]
    rw [Nat.min_def]
    split_ifs <;> omega
  · intro i hi
    rw [hchar, getD_range_map _ _ _ _ hi]
    have hlt := hlenbound i hi
    simp only [List.length_take, List.length_drop]
    rw [Nat.min_def]
    split <;> omega
  · intro i hi
    have hlt := hlenbound i hi
    omega

/-- C4 witness: the 257-byte input packed from base address 0x4000
satisfies the preconditions; its last chunk (index count minus 1) holds
length mod 256 bytes, and chunk 1 is loaded at 0x4000 + 256. -/
theorem c4_segmentation_witness :
    (List.replicate 257 9 : List Nat) ≠ [] ∧
    (List.replicate 257 9 : List Nat).length ≤ 0x10000 - 0x4000 ∧
    ((chunkSeq 0x4000 (List.replicate 257 9) 0).getD
        (((List.replicate 257 9 : List Nat).length + 255) / 256 - 1)
        (0, [])).2.length =
      (if (List.replicate 257 9 : List Nat).length % 256 = 0 then 256
        else (List.replicate 257 9 : List Nat).length % 256) ∧
    ((chunkSeq 0x4000 (List.replicate 257 9) 0).getD 1 (0, [])).1 =
      0x4000 + 256 * 1 := by
  have hne : (List.replicate 257 9 : List Nat) ≠ [] := by
    intro hcon
    have hl := congrArg List.length hcon
    rw [List.length_replicate] at hl
    simp at hl
  have hcap : (List.replicate 257 9 : List Nat).length ≤ 0x10000 - 0x4000 := by
    rw [List.length_replicate]
    norm_num
  have h := c4_segmentation (List.replicate 257 9) 0x4000 hne hcap
  exact ⟨hne, hcap, h.2.2.2.2.1,
    h.2.2.1 1 (by rw [List.length_replicate]; norm_num)⟩

/-- Writing a byte into the first padding slot of a partially filled
6-byte name buffer extends the filled prefix by that byte. -/
theorem set_pad (pre : List Nat) (b : Nat) (h : pre.length < 6) :
    (pre ++ List.replicate (6 - pre.length) 0x20).set pre.length b =
      (pre ++ [b]) ++ List.replicate (6 - (pre.length + 1)) 0x20 := by
  rw [List.set_append_right _ _ le_rfl, Nat.sub_self,
    show 6 - pre.length = (6 - (pre.length + 1)) + 1 from by omega,
    List.replicate_succ]
  simp

/-- Rearranging a filled prefix, a retained byte, further retained
bytes and the space padding of the 6-byte name buffer. -/
theorem pad_step (pre A : List Nat) (b n1 n2 : Nat) (h : n1 = n2) :
    (pre ++ [b] ++ A ++ List.replicate n1 0x20 : List Nat) =
      pre ++ (b :: A) ++ List.replicate n2 0x20 := by
  rw [h]
  simp [List.append_assoc]

/-- The sanitizer loop, started on a buffer whose first pre.length
bytes are filled and whose remaining slots are space padding, produces
the filled prefix, then the characters the specification retains (given
the remaining slot count and letter flag), then space padding; and its
letter flag matches the specification scan. -/
theorem go_spec :
    ∀ (template pre : List Nat) (hl : Bool), pre.length ≤ 6 →
      retrieve_tape_entry_name_go template
          (pre ++ List.replicate (6 - pre.length) 0x20) pre.length hl =
        (pre ++ (specRetained template (6 - pre.length) hl).1 ++
            List.replicate ((6 - pre.length) -
              (specRetained template (6 - pre.length) hl).1.length) 0x20,
          (specRetained template (6 - pre.length) hl).2)
  | [], pre, hl, hlen => by
    rw [retrieve_tape_entry_name_go, specRetained]
    simp
  | c :: rest, pre, hl, hlen => by
    rw [retrieve_tape_entry_name_go, specRetained]
    rcases eq_or_ne pre.length 6 with h6 | h6
    · rw [if_pos h6, if_pos (by omega : 6 - pre.length = 0)]
      simp [h6]
    · have hk : pre.length < 6 := by omega
      rw [if_neg h6, if_neg (by omega : ¬6 - pre.length = 0)]
      by_cases hsp : c = 0x20 ∧ hl = true
      · rw [if_pos hsp, if_pos hsp, set_pad pre 0x20 hk,
          show pre.length + 1 = (pre ++ [0x20]).length from by simp,
          go_spec rest (pre ++ [0x20]) hl (by simp; omega)]
        simp only [List.length_append, List.length_cons, List.length_nil,
          Nat.sub_sub, Nat.add_zero, Nat.zero_add]
        rw [Prod.mk.injEq]
        exact ⟨pad_step pre _ 0x20 _ _ (by omega), rfl⟩
      · rw [if_neg hsp, if_neg hsp]
        by_cases hup : 0x41 ≤ c ∧ c ≤ 0x5A
        · rw [if_pos hup, if_pos hup, set_pad pre c hk,
            show pre.length + 1 = (pre ++ [c]).length from by simp,
            go_spec rest (pre ++ [c]) true (by simp; omega)]
          simp only [List.length_append, List.length_cons, List.length_nil,
            Nat.sub_sub, Nat.add_zero, Nat.zero_add]
          rw [Prod.mk.injEq]
          exact ⟨pad_step pre _ c _ _ (by omega), rfl⟩
        · rw [if_neg hup, if_neg hup]
          by_cases hlo : 0x61 ≤ c ∧ c ≤ 0x7A
          · rw [if_pos hlo, if_pos hlo, set_pad pre (c - 0x20) hk,
              show pre.length + 1 = (pre ++ [c - 0x20]).length from by simp,
              go_spec rest (pre ++ [c - 0x20]) true (by simp; omega)]
            simp only [List.length_append, List.length_cons, List.length_nil,
              Nat.sub_sub, Nat.add_zero, Nat.zero_add]
            rw [Prod.mk.injEq]
            exact ⟨pad_step pre _ (c - 0x20) _ _ (by omega), rfl⟩
          · rw [if_neg hlo, if_neg hlo]
            exact go_spec rest pre hl hlen

/-- The specification scan retains at most as many characters as there
are output slots. -/
theorem specRetained_length_le :
    ∀ (input : List Nat) (s : Nat) (hl : Bool),
      (specRetained input s hl).1.length ≤ s
  | [], s, hl => by
    rw [specRetained]
    simp
  | c :: rest, s, hl => by
    rw [specRetained]
    rcases eq_or_ne s 0 with h0 | h0
    · simp [h0]
    · rw [if_neg h0]
      by_cases hsp : c = 0x20 ∧ hl = true
      · rw [if_pos hsp]
        have := specRetained_length_le rest (s - 1) hl
        simp only [List.length_cons]
        omega
      · rw [if_neg hsp]
        by_cases hup : 0x41 ≤ c ∧ c ≤ 0x5A
        · rw [if_pos hup]
          have := specRetained_length_le rest (s - 1) true
          simp only [List.length_cons]
          omega
        · rw [if_neg hup]
          by_cases hlo : 0x61 ≤ c ∧ c ≤ 0x7A
          · rw [if_pos hlo]
            have := specRetained_length_le rest (s - 1) true
            simp only [List.length_cons]
            omega
          · rw [if_neg hlo]
            exact specRetained_length_le rest s hl

/-- Every character the specification scan retains is a space or an
upper-case ASCII letter. -/
theorem specRetained_mem :
    ∀ (input : List Nat) (s : Nat) (hl : Bool) (b : Nat),
      b ∈ (specRetained input s hl).1 →
      b = 0x20 ∨ (0x41 ≤ b ∧ b ≤ 0x5A)
  | [], s, hl, b => by
    rw [specRetained]
    simp
  | c :: rest, s, hl, b => by
    rw [specRetained]
    rcases eq_or_ne s 0 with h0 | h0
    · simp [h0]
    · rw [if_neg h0]
      by_cases hsp : c = 0x20 ∧ hl = true
      · rw [if_pos hsp]
        intro hmem
        rcases List.mem_cons.mp hmem with hb | hb
        · exact Or.inl hb
        · exact specRetained_mem rest (s - 1) hl b hb
      · rw [if_neg hsp]
        by_cases hup : 0x41 ≤ c ∧ c ≤ 0x5A
        · rw [if_pos hup]
          intro hmem
          rcases List.mem_cons.mp hmem with hb | hb
          · exact Or.inr (hb ▸ hup)
          · exact specRetained_mem rest (s - 1) true b hb
        · rw [if_neg hup]
          by_cases hlo : 0x61 ≤ c ∧ c ≤ 0x7A
          · rw [if_pos hlo]
            intro hmem
            rcases List.mem_cons.mp hmem with hb | hb
            · refine Or.inr ?_
              rw [hb]
              omega
            · exact specRetained_mem rest (s - 1) true b hb
          · rw [if_neg hlo]
            exact specRetained_mem rest s hl b

/-- The letter flag of the specification scan is true exactly when it
was already set or a retained character is an upper-case letter. -/
theorem specRetained_flag :
    ∀ (input : List Nat) (s : Nat) (hl : Bool),
      ((specRetained input s hl).2 = true ↔
        (hl = true ∨ ∃ b ∈ (specRetained input s hl).1, 0x41 ≤ b ∧ b ≤ 0x5A))
  | [], s, hl => by
    rw [specRetained]
    simp
  | c :: rest, s, hl => by
    rw [specRetained]
    rcases eq_or_ne s 0 with h0 | h0
    · simp [h0]
    · rw [if_neg h0]
      by_cases hsp : c = 0x20 ∧ hl = true
      · rw [if_pos hsp]
        have ih := specRetained_flag rest (s - 1) hl
        simp only [hsp.2, true_or, iff_true] at ih
        simp [ih, hsp.2]
      · rw [if_neg hsp]
        by_cases hup : 0x41 ≤ c ∧ c ≤ 0x5A
        · rw [if_pos hup]
          have ih := specRetained_flag rest (s - 1) true
          simp only [true_or, iff_true] at ih
          simp only [ih, true_iff]
          exact Or.inr ⟨c, List.mem_cons_self c _, hup⟩
        · rw [if_neg hup]
          by_cases hlo : 0x61 ≤ c ∧ c ≤ 0x7A
          · rw [if_pos hlo]
            have ih := specRetained_flag rest (s - 1) true
            simp only [true_or, iff_true] at ih
            simp only [ih, true_iff]
            exact Or.inr ⟨c - 0x20, List.mem_cons_self _ _, by omega⟩
          · rw [if_neg hlo]
            exact specRetained_flag rest s hl

/-- C7: the sanitizer equals the specification sanitizer on every
input: it returns exactly 6 bytes, each a space or an upper-case ASCII
letter (letters retained and upper-cased, a space retained only after a
letter, everything else dropped, scanning stopping after 6 retained
characters, padding with spaces), and the flag is true exactly when a
letter was retained; on the spec examples, the input ab-space-cd gives
AB-space-CD-space with the flag set, and the inputs 123 and the empty
string give six spaces with the flag unset. -/
theorem c7_sanitizer (input : List Nat) :
    retrieve_tape_entry_name input = sanitizeSpec input ∧
    (retrieve_tape_entry_name input).1.length = 6 ∧
    (∀ b ∈ (retrieve_tape_entry_name input).1,
      b = 0x20 ∨ (0x41 ≤ b ∧ b ≤ 0x5A)) ∧
    ((retrieve_tape_entry_name input).2 = true ↔
      ∃ b ∈ (specRetained input 6 false).1, 0x41 ≤ b ∧ b ≤ 0x5A) ∧
    retrieve_tape_entry_name [97, 98, 32, 99, 100] =
      ([65, 66, 32, 67, 68, 32], true) ∧
    retrieve_tape_entry_name [49, 50, 51] =
      ([32, 32, 32, 32, 32, 32], false) ∧
    retrieve_tape_entry_name [] = ([32, 32, 32, 32, 32, 32], false) := by
  have hmain : retrieve_tape_entry_name input = sanitizeSpec input := by
    rw [retrieve_tape_entry_name, sanitizeSpec]
    have h := go_spec input [] false (by simp)
    simp only [List.length_nil, Nat.sub_zero, List.nil_append] at h
    exact h
  have hlen := specRetained_length_le input 6 false
  refine ⟨hmain, ?_, ?_, ?_, by decide, by decide, by decide⟩
  · rw [hmain, sanitizeSpec]
    simp only [List.length_append, List.length_replicate]
    omega
  · rw [hmain, sanitizeSpec]
    intro b hb
    simp only [List.mem_append] at hb
    rcases hb with hb | hb
    · exact specRetained_mem input 6 false b hb
    · exact Or.inl (List.eq_of_mem_replicate hb)
  · rw [hmain, sanitizeSpec]
    have h := specRetained_flag input 6 false
    constructor
    · intro hf
      rcases h.mp hf with hcon | hex
      · exact absurd hcon (by simp)
      · exact hex
    · intro hex
      exact h.mpr (Or.inr hex)

/-- C7 witness: the byte range property applied to the byte 65, which
is a member of the sanitized name of the input ab-space-cd. -/
theorem c7_sanitizer_witness :
    (65 : Nat) = 0x20 ∨ (0x41 ≤ (65 : Nat) ∧ (65 : Nat) ≤ 0x5A) :=
  (c7_sanitizer [97, 98, 32, 99, 100]).2.2.1 65 (by decide)

/-- C8 counterexample: on the input hello-space-world the sanitizer
retains the space after HELLO as the sixth character, returning the
bytes of HELLO-space, not those of HELLOW. -/
theorem c8_counterexample :
    retrieve_tape_entry_name
        [104, 101, 108, 108, 111, 32, 119, 111, 114, 108, 100] =
      ([72, 69, 76, 76, 79, 32], true) ∧
    (retrieve_tape_entry_name
        [104, 101, 108, 108, 111, 32, 119, 111, 114, 108, 100]).1 ≠
      [72, 69, 76, 76, 79, 87] := by
  constructor
  · decide
  · decide

/-- C8 amended: the sanitizer applied to hello-space-world returns the
6-byte name HELLO-space (the sixth retained character is the space
following the first five letters) with the letter flag set. -/
theorem c8_hello_world :
    retrieve_tape_entry_name
        [104, 101, 108, 108, 111, 32, 119, 111, 114, 108, 100] =
      ([72, 69, 76, 76, 79, 32], true) := by
  decide

/-- C10: when the input read fails or a sanity check fails, pack
returns failure without touching the destination file; and whenever the
destination is touched, the read and the checks succeeded and the
complete tape image had been assembled. -/
theorem c10_no_partial_output (readResult : Option (List Nat))
    (entry_name : List Nat) (base_address entry_point : Nat)
    (writeOk : Bool) :
    ((readResult = none ∨
        (∃ input, readResult = some input ∧
          input_file_sanity_check base_address input.length ≠ none)) →
      ((pack readResult entry_name base_address entry_point
          writeOk).success = false ∧
        FsEvent.touchOutput ∉
          (pack readResult entry_name base_address entry_point
            writeOk).events)) ∧
    (FsEvent.touchOutput ∈
        (pack readResult entry_name base_address entry_point
          writeOk).events →
      ∃ input, readResult = some input ∧
        input_file_sanity_check base_address input.length = none ∧
        (pack readResult entry_name base_address entry_point
            writeOk).written =
          pack_tape_image input entry_name base_address entry_point) := by
  constructor
  · intro hfail
    match hr : readResult with
    | none =>
      simp [pack]
    | some input =>
      have hbad : input_file_sanity_check base_address input.length ≠ none := by
        rcases hfail with hcon | ⟨input2, heq, hbad2⟩
        · exact absurd hcon (by simp)
        · injection heq with heq2
          rw [← heq2] at hbad2
          exact hbad2
      match hs : input_file_sanity_check base_address input.length with
      | some e =>
        simp [pack, hs]
      | none =>
        exact absurd hs hbad
  · intro htouch
    match hr : readResult with
    | none =>
      simp [pack] at htouch
    | some input =>
      match hs : input_file_sanity_check base_address input.length with
      | some e =>
        simp [pack, hs] at htouch
      | none =>
        exact ⟨input, rfl, hs, by simp [pack, hs]⟩

/-- C10 witness: reading an empty input file (so the empty-input check
fails) makes pack fail without touching the destination. -/
theorem c10_no_partial_output_witness :
    (pack (some []) [65, 66, 67, 68, 69, 70] 0 0 true).success = false ∧
      FsEvent.touchOutput ∉
        (pack (some []) [65, 66, 67, 68, 69, 70] 0 0 true).events :=
  (c10_no_partial_output (some []) [65, 66, 67, 68, 69, 70] 0 0 true).1
    (Or.inr ⟨[], rfl, by decide⟩)

/-- Any value char::to_digit(16) returns is below 16. -/
theorem to_digit16_lt (c d : Nat) (h : to_digit16 c = some d) : d < 16 := by
  rw [to_digit16] at h
  split at h
  · injection h with h2
    omega
  · split at h
    · injection h with h2
      omega
    · split at h
      · injection h with h2
        omega
      · exact absurd h (by simp)

/-- The digit value extracted with a default of 0 is below 16. -/
theorem to_digit16_getD_lt (c : Nat) : (to_digit16 c).getD 0 < 16 := by
  cases h : to_digit16 c with
  | none => simp
  | some d => simpa using to_digit16_lt c d h

/-- Bitwise or of a multiple of 16 with a value below 16 is addition:
the four low bits of the two operands never overlap. -/
theorem lor_sixteen_mul (k d : Nat) (hd : d < 16) :
    (16 * k) ||| d = 16 * k + d := by
  apply Nat.eq_of_testBit_eq
  intro j
  have h16 : (16 : Nat) = 2 ^ 4 := by norm_num
  rw [Nat.testBit_or, h16, Nat.testBit_mul_pow_two_add k (by omega) j]
  rcases lt_or_le j 4 with hj | hj
  · rw [if_pos hj]
    have hzero : ((2 : Nat) ^ 4 * k).testBit j = false := by
      rw [Nat.testBit_mul_pow_two]
      simp [show ¬4 ≤ j from by omega]
    rw [hzero, Bool.false_or]
  · rw [if_neg (by omega)]
    have hzero : d.testBit j = false := by
      refine Nat.testBit_lt_two_pow ?_
      calc d < 16 := hd
        _ = 2 ^ 4 := by norm_num
        _ ≤ 2 ^ j := Nat.pow_le_pow_right (by omega) hj
    rw [hzero, Bool.or_false, Nat.testBit_mul_pow_two]
    simp [show 4 ≤ j from hj]

/-- The accumulation loop of parse_hex_arg succeeds exactly when every
remaining character is a hex digit, and then computes the fold of the
wrapping u32 step over them. -/
theorem parse_hex_loop_char :
    ∀ (chars : List Nat) (acc : Nat),
      parse_hex_loop chars acc =
        if ∀ c ∈ chars, (to_digit16 c).isSome = true then
          some (chars.foldl
            (fun a c => (a * 16) % 4294967296 + (to_digit16 c).getD 0) acc)
        else none
  | [], acc => by
    rw [parse_hex_loop]
    simp
  | c :: rest, acc => by
    rw [parse_hex_loop]
    cases h : to_digit16 c with
    | none =>
      have hneg : ¬ ∀ x ∈ c :: rest, (to_digit16 x).isSome = true := by
        intro hall
        have h2 := hall c (List.mem_cons_self c rest)
        rw [h] at h2
        simp at h2
      simp only [h]
      rw [if_neg hneg]
    | some d =>
      have hd : d < 16 := to_digit16_lt c d h
      have harg : ((acc <<< 4) % 4294967296) ||| d =
          (acc * 16) % 4294967296 + d := by
        have hdvd : (16 : Nat) ∣ (acc <<< 4) % 4294967296 := by
          rw [Nat.shiftLeft_eq]
          refine (Nat.dvd_mod_iff (by norm_num)).mpr ⟨acc, by ring⟩
        obtain ⟨k, hk⟩ := hdvd
        rw [hk, lor_sixteen_mul k d hd, ← hk, Nat.shiftLeft_eq]
      simp only [h]
      rw [harg, parse_hex_loop_char rest ((acc * 16) % 4294967296 + d)]
      by_cases hall : ∀ x ∈ rest, (to_digit16 x).isSome = true
      · rw [if_pos hall, if_pos]
        · simp only [List.foldl_cons, h, Option.getD_some]
        · intro x hx
          rcases List.mem_cons.mp hx with hx1 | hx2
          · rw [hx1, h]
            rfl
          · exact hall x hx2
      · rw [if_neg hall, if_neg]
        intro hcon
        exact hall fun x hx => hcon x (List.mem_cons_of_mem c hx)

/-- The plain hex fold taken modulo two to the 32 depends only on the
accumulator modulo two to the 32. -/
theorem hexFold_mod :
    ∀ (l : List Nat) (a b : Nat), a % 4294967296 = b % 4294967296 →
      (l.foldl (fun x c => x * 16 + (to_digit16 c).getD 0) a) % 4294967296 =
        (l.foldl (fun x c => x * 16 + (to_digit16 c).getD 0) b) % 4294967296
  | [], a, b, h => h
  | c :: t, a, b, h => by
    simp only [List.foldl_cons]
    refine hexFold_mod t _ _ ?_
    omega

/-- The wrapping u32 hex fold equals the plain hex fold reduced modulo
two to the 32. -/
theorem wrapFold_eq :
    ∀ (l : List Nat) (acc : Nat), acc < 4294967296 →
      l.foldl (fun a c => (a * 16) % 4294967296 + (to_digit16 c).getD 0) acc =
        (l.foldl (fun a c => a * 16 + (to_digit16 c).getD 0) acc) % 4294967296
  | [], acc, h => by
    simp [Nat.mod_eq_of_lt h]
  | c :: t, acc, h => by
    simp only [List.foldl_cons]
    have hd : (to_digit16 c).getD 0 < 16 := to_digit16_getD_lt c
    rw [wrapFold_eq t ((acc * 16) % 4294967296 + (to_digit16 c).getD 0)
      (by omega)]
    exact hexFold_mod t _ _ (by omega)

/-- parse_hex_arg succeeds exactly when the argument is non-empty and
every character after an optional leading 0x or 0X prefix is a hex
digit, in which case it returns the denoted value reduced modulo two to
the 32. -/
theorem parse_hex_arg_char (arg : List Nat) :
    parse_hex_arg arg =
      (if arg ≠ [] ∧ ∀ c ∈ stripPfx arg, (to_digit16 c).isSome = true then
        some (hexVal (stripPfx arg) % 4294967296)
      else none) := by
  match arg with
  | [] =>
    rw [parse_hex_arg]
    simp
  | first :: rest =>
    by_cases h0 : first = 0x30
    · subst h0
      match rest with
      | [] =>
        decide
      | ch :: rest2 =>
        by_cases hx : ch = 0x78 ∨ ch = 0x58
        · rw [parse_hex_arg]
          rw [if_pos (rfl : (0x30 : Nat) = 0x30), if_pos hx]
          have hstrip : stripPfx (0x30 :: ch :: rest2) = rest2 := by
            rw [stripPfx]
            exact if_pos ⟨rfl, hx⟩
          rw [hstrip]
          dsimp only
          have hdig : to_digit16 0x30 = some 0 := by decide
          rw [hdig]
          dsimp only
          rw [parse_hex_loop_char rest2 0,
            wrapFold_eq rest2 0 (by norm_num)]
          rw [hexVal]
          simp
        · rw [parse_hex_arg]
          rw [if_pos (rfl : (0x30 : Nat) = 0x30), if_neg hx]
          have hstrip : stripPfx (0x30 :: ch :: rest2) = 0x30 :: ch :: rest2 := by
            rw [stripPfx]
            refine if_neg ?_
            rintro ⟨_, hcon⟩
            exact hx hcon
          rw [hstrip]
          dsimp only
          cases h : to_digit16 ch with
          | none =>
            have hneg : ¬((0x30 :: ch :: rest2 : List Nat) ≠ [] ∧
                ∀ c ∈ 0x30 :: ch :: rest2, (to_digit16 c).isSome = true) := by
              rintro ⟨-, hall⟩
              have h2 := hall ch (by simp)
              rw [h] at h2
              simp at h2
            simp only [h]
            rw [if_neg hneg]
          | some d =>
            have hd : d < 16 := to_digit16_lt ch d h
            simp only [h]
            rw [parse_hex_loop_char rest2 d, wrapFold_eq rest2 d (by omega)]
            have hval : hexVal (0x30 :: ch :: rest2) =
                rest2.foldl (fun a c => a * 16 + (to_digit16 c).getD 0) d := by
              rw [hexVal]
              simp only [List.foldl_cons, h]
              rw [show (to_digit16 0x30).getD 0 = 0 from by decide]
              norm_num
            rw [hval]
            by_cases hall : ∀ x ∈ rest2, (to_digit16 x).isSome = true
            · rw [if_pos hall, if_pos]
              refine ⟨by simp, ?_⟩
              intro x hx2
              rcases List.mem_cons.mp hx2 with hx3 | hx4
              · rw [hx3]
                rfl
              · rcases List.mem_cons.mp hx4 with hx5 | hx6
                · rw [hx5, h]
                  rfl
                · exact hall x hx6
            · rw [if_neg hall, if_neg]
              rintro ⟨-, hcon⟩
              refine hall fun x hx2 => hcon x ?_
              exact List.mem_cons_of_mem _ (List.mem_cons_of_mem _ hx2)
    · rw [parse_hex_arg.eq_def]
      dsimp only
      rw [if_neg h0]
      have hstrip : stripPfx (first :: rest) = first :: rest := by
        match rest with
        | [] => rfl
        | ch :: rest2 =>
          rw [stripPfx]
          refine if_neg ?_
          rintro ⟨hcon, -⟩
          exact h0 hcon
      rw [hstrip]
      cases h : to_digit16 first with
      | none =>
        have hneg : ¬((first :: rest : List Nat) ≠ [] ∧
            ∀ c ∈ first :: rest, (to_digit16 c).isSome = true) := by
          rintro ⟨-, hall⟩
          have h2 := hall first (by simp)
          rw [h] at h2
          simp at h2
        simp only [h]
        rw [if_neg hneg]
      | some d =>
        have hd : d < 16 := to_digit16_lt first d h
        simp only [h]
        rw [parse_hex_loop_char rest d, wrapFold_eq rest d (by omega)]
        have hval : hexVal (first :: rest) =
            rest.foldl (fun a c => a * 16 + (to_digit16 c).getD 0) d := by
          rw [hexVal]
          simp only [List.foldl_cons, h]
          norm_num
        rw [hval]
        by_cases hall : ∀ x ∈ rest, (to_digit16 x).isSome = true
        · rw [if_pos hall, if_pos]
          refine ⟨by simp, ?_⟩
          intro x hx2
          rcases List.mem_cons.mp hx2 with hx3 | hx4
          · rw [hx3, h]
            rfl
          · exact hall x hx4
        · rw [if_neg hall, if_neg]
          rintro ⟨-, hcon⟩
          exact hall fun x hx2 => hcon x (List.mem_cons_of_mem _ hx2)

/-- C9 counterexample: the string 0x with no digits after the prefix is
accepted as 0 while the empty string is rejected, so no reading of the
claimed character rule matches the code; and the all-hex string
100000000, which denotes 2 to the 32 (far above 0xFFFF), wraps around
the u32 accumulator to 0 and is accepted as the address 0 instead of
being rejected. -/
theorem c9_counterexample :
    parse_hex_arg [0x30, 0x78] = some 0 ∧
    parse_hex_arg [] = none ∧
    retrieve_address_from [49, 48, 48, 48, 48, 48, 48, 48, 48] = some 0 ∧
    hexVal [49, 48, 48, 48, 48, 48, 48, 48, 48] = 4294967296 ∧
    (4294967296 : Nat) > 0xFFFF := by
  refine ⟨by decide, by decide, by decide, by decide, by decide⟩

/-- C9 amended: for every argument string, hex parsing of the base
address and entry point succeeds exactly when the string is non-empty,
every character after an optional leading 0x or 0X prefix is a hex
digit 0-9, a-f, A-F (the digit part may be empty when the prefix is
present, denoting 0), and the denoted value reduced modulo 2 to the 32
is at most 0xFFFF; the accepted value is the denoted value modulo 2 to
the 32, so values of 2 to the 32 or more wrap around instead of being
rejected. -/
theorem c9_hex_parsing (arg : List Nat) (v : Nat) :
    retrieve_address_from arg = some v ↔
      (arg ≠ [] ∧ (∀ c ∈ stripPfx arg, (to_digit16 c).isSome = true) ∧
        hexVal (stripPfx arg) % 4294967296 ≤ 0xFFFF ∧
        v = hexVal (stripPfx arg) % 4294967296) := by
  rw [retrieve_address_from, parse_hex_arg_char]
  by_cases hc : arg ≠ [] ∧ ∀ c ∈ stripPfx arg, (to_digit16 c).isSome = true
  · rw [if_pos hc]
    dsimp only
    by_cases hv : hexVal (stripPfx arg) % 4294967296 > 0xFFFF
    · rw [if_pos hv]
      constructor
      · intro hcon
        exact absurd hcon (by simp)
      · rintro ⟨-, -, hle, -⟩
        omega
    · rw [if_neg hv]
      constructor
      · intro hsome
        injection hsome with hv2
        exact ⟨hc.1, hc.2, by omega, hv2.symm⟩
      · rintro ⟨-, -, -, rfl⟩
        rfl
  · rw [if_neg hc]
    constructor
    · intro hcon
      exact absurd hcon (by simp)
    · rintro ⟨h1, h2, -, -⟩
      exact absurd ⟨h1, h2⟩ hc

/-- C9 witness: the amended characterization accepts the string 0x5 as
the address 5. -/
theorem c9_hex_parsing_witness : retrieve_address_from [0x30, 0x78, 0x35] = some 5 :=
  (c9_hex_parsing [0x30, 0x78, 0x35] 5).mpr
    ⟨by decide, by decide, by decide, by decide⟩

end Trs80
